import Mathlib

/-
  Shallow embedding of the netrc-rs library (src/lib.rs): a parser for the
  `.netrc` credentials format.  Strings are modelled as `List Char` (the Rust
  code works on a `Chars` iterator).  Fallible code returns `Except Error`.
  Rust panics (index out of range / usize underflow) are modelled by the
  distinguished error value `Error.outOfBounds`, proved unreachable below.
-/

set_option maxRecDepth 8000

namespace NetrcRs

/-- Rust `char::is_whitespace`: the Unicode White_Space property
    (the 25 code points with that property). -/
def rustIsWhitespace (c : Char) : Bool :=
  let n := c.toNat
  n = 0x09 || n = 0x0A || n = 0x0B || n = 0x0C || n = 0x0D || n = 0x20 ||
  n = 0x85 || n = 0xA0 || n = 0x1680 ||
  (decide (0x2000 ≤ n) && decide (n ≤ 0x200A)) ||
  n = 0x2028 || n = 0x2029 || n = 0x202F || n = 0x205F || n = 0x3000

/-- `Position(pub usize, pub usize)`: row and column, starting from 1. -/
structure Position where
  row : Nat
  col : Nat
deriving DecidableEq, Repr

/-- The `.netrc` machine info (struct `Machine`). -/
structure Machine where
  name : Option (List Char)
  login : Option (List Char)
  password : Option (List Char)
  account : Option (List Char)
deriving DecidableEq, Repr

/-- `Machine::default()`: all fields `None`. -/
def Machine.empty : Machine := ⟨none, none, none, none⟩

/-- The aggregate result (struct `Netrc`). -/
structure Netrc where
  machines : List Machine
  macdefs : List (List Char × List (List Char))
  unknown_entries : List (List Char)
deriving DecidableEq, Repr

/-- `Netrc::default()`. -/
def Netrc.empty : Netrc := ⟨[], [], []⟩

/-- enum `Error`.  `eof` and `illegalFormat` are the source's two variants.
    `outOfBounds` models a Rust panic (indexing out of range, or the usize
    underflow in `machines.len() - 1`); `outOfFuel` is an artifact of the
    fuel-based loop below.  Both extra values are proved unreachable. -/
inductive Error where
  | eof : Error
  | illegalFormat (pos : Position) (msg : List Char) : Error
  | outOfBounds : Error
  | outOfFuel : Error
deriving DecidableEq, Repr

/-- The four running counters (struct `MachineCount`). -/
structure MachineCount where
  machine : Nat
  login : Nat
  password : Nat
  account : Nat
deriving DecidableEq, Repr

/-- `MachineCount::default()`. -/
def MachineCount.zero : MachineCount := ⟨0, 0, 0, 0⟩

/-- enum `Token`. -/
inductive Token where
  | machine : Token
  | default : Token
  | login : Token
  | password : Token
  | account : Token
  | macdef : Token
  | str (s : List Char) : Token
deriving DecidableEq, Repr

def kwMachine : List Char := "machine".toList
def kwDefault : List Char := "default".toList
def kwLogin : List Char := "login".toList
def kwPassword : List Char := "password".toList
def kwAccount : List Char := "account".toList
def kwMacdef : List Char := "macdef".toList

/-- `Token::new`: classify a raw word by exact match against the keywords. -/
def Token.new (s : List Char) : Token :=
  if s = kwMachine then .machine
  else if s = kwDefault then .default
  else if s = kwLogin then .login
  else if s = kwPassword then .password
  else if s = kwAccount then .account
  else if s = kwMacdef then .macdef
  else .str s

/-- `impl Display for Token`: recover the original spelling. -/
def Token.toText : Token → List Char
  | .machine => kwMachine
  | .default => kwDefault
  | .login => kwLogin
  | .password => kwPassword
  | .account => kwAccount
  | .macdef => kwMacdef
  | .str s => s

/-- struct `Tokens`: the character cursor plus the current `Position`. -/
structure Tokens where
  buf : List Char
  pos : Position
deriving DecidableEq, Repr

/-- `Tokens::update_position`. -/
def update_position (p : Position) (c : Char) : Position :=
  if c = '\n' then ⟨p.row + 1, 1⟩ else ⟨p.row, p.col + 1⟩

/-- Loop body of `Tokens::skip_whitespace`. -/
def skipWSAux : List Char → Position → List Char × Position
  | [], p => ([], p)
  | c :: cs, p =>
    if rustIsWhitespace c then skipWSAux cs (update_position p c) else (c :: cs, p)

/-- `Tokens::skip_whitespace`. -/
def Tokens.skip_whitespace (t : Tokens) : Tokens :=
  let r := skipWSAux t.buf t.pos
  ⟨r.1, r.2⟩

/-- Word-collection loop of `Tokens::next_token`: consume characters up to the
    next whitespace, updating the position per character.  Returns the word,
    the rest of the buffer and the new position. -/
def takeWordAux : List Char → Position → List Char × List Char × Position
  | [], p => ([], [], p)
  | c :: cs, p =>
    if rustIsWhitespace c then ([], c :: cs, p)
    else
      let r := takeWordAux cs (update_position p c)
      (c :: r.1, r.2.1, r.2.2)

/-- `Tokens::next_token`. -/
def Tokens.next_token (t : Tokens) : Option (Token × Tokens) :=
  match (t.skip_whitespace).buf with
  | [] => none
  | _ :: _ =>
    let r := takeWordAux (t.skip_whitespace).buf (t.skip_whitespace).pos
    if r.1 = [] then none else some (Token.new r.1, ⟨r.2.1, r.2.2⟩)

/-- Rust `str::lines` strips a trailing `'\r'` from a line only when the line
    was terminated by `'\n'`.  `acc` holds the line reversed. -/
def finishLine (acc : List Char) : List Char :=
  match acc with
  | '\r' :: rest => rest.reverse
  | _ => acc.reverse

/-- Body of `str::lines`: split at `'\n'` (terminators not included), the
    final line ending being optional. -/
def linesAux : List Char → List Char → List (List Char)
  | [], acc => [acc.reverse]
  | c :: cs, acc =>
    if c = '\n' then
      finishLine acc :: (match cs with | [] => [] | _ :: _ => linesAux cs [])
    else linesAux cs (c :: acc)

/-- Rust `str::lines` on the remaining buffer. -/
def lines (s : List Char) : List (List Char) :=
  match s with
  | [] => []
  | _ :: _ => linesAux s []

/-- Rust `str::len` of a line: its UTF-8 byte length (the source consumes
    `line.len() + 1` *characters* per line — faithfully modelled below). -/
def byteLen (l : List Char) : Nat := (l.map Char.utf8Size).sum

/-- Rust `str::trim`: strip leading and trailing whitespace. -/
def trimText (l : List Char) : List Char :=
  ((l.dropWhile rustIsWhitespace).reverse.dropWhile rustIsWhitespace).reverse

/-- Loop body of `Tokens::next_commands`: for each line of the snapshot,
    `line.len() + 1` characters are consumed from the live buffer, then an
    empty line (or a line equal to `"\n"`, which `lines` never yields)
    terminates; other lines are trimmed and appended. -/
def consumeLines : List (List Char) → List Char → List (List Char) →
    List Char × List (List Char)
  | [], buf, cmds => (buf, cmds)
  | l :: rest, buf, cmds =>
    let buf1 := buf.drop (byteLen l + 1)
    if l = [] ∨ l = ['\n'] then (buf1, cmds)
    else consumeLines rest buf1 (cmds ++ [trimText l])

/-- `Tokens::next_commands`. -/
def Tokens.next_commands (t : Tokens) : Tokens × List (List Char) :=
  let t1 := t.skip_whitespace
  let r := consumeLines (lines t1.buf) t1.buf []
  (⟨r.1, ⟨t1.pos.row + r.2.length, 1⟩⟩, r.2)

/-- `Lexer::next_token`: turn "no more input" into `Error::EOF`. -/
def lexer_next_token (t : Tokens) : Except Error (Token × Tokens) :=
  match t.next_token with
  | none => .error .eof
  | some x => .ok x

/-- `Netrc::parse_entry`: dispatch one token.  The source's
    `count.login += 1; if count.login > count.machine` is written as the
    comparison `count.login + 1 > count.machine` with the incremented counter
    stored on the success path; on the error path the parse aborts, so the
    mutated counter is unobservable.  The increment-then-compare still happens
    before any indexed access.  The two `.error .outOfBounds`
    arms model the Rust panics: indexing `machines[count.machine]` out of
    range, and the `machines.len() - 1` underflow / out-of-range access
    (in the model `Nat` subtraction truncates at 0 and the `get?` of an
    empty list is `none`, so both Rust failure modes land in this arm). -/
def parse_entry (netrc : Netrc) (tk : Tokens) (item : Token)
    (count : MachineCount) (unknown_entries : Bool) :
    Except Error (Netrc × Tokens × MachineCount) :=
  match item with
  | .machine =>
    match lexer_next_token tk with
    | .error e => .error e
    | .ok (host_name, tk1) =>
      match (netrc.machines ++ [Machine.empty]).get? count.machine with
      | none => .error .outOfBounds
      | some m =>
        .ok ({ netrc with
                machines := (netrc.machines ++ [Machine.empty]).set count.machine
                  { m with name := some host_name.toText } },
             tk1, { count with machine := count.machine + 1 })
  | .default =>
    .ok ({ netrc with machines := netrc.machines ++ [Machine.empty] }, tk,
         { count with machine := count.machine + 1 })
  | .login =>
    match lexer_next_token tk with
    | .error e => .error e
    | .ok (v, tk1) =>
      if count.login + 1 > count.machine then
        .error (.illegalFormat tk1.pos "login must follow machine".toList)
      else
        match netrc.machines.get? (netrc.machines.length - 1) with
        | none => .error .outOfBounds
        | some m =>
          .ok ({ netrc with
                  machines := netrc.machines.set (netrc.machines.length - 1)
                    { m with login := some v.toText } },
               tk1, { count with login := count.login + 1 })
  | .password =>
    match lexer_next_token tk with
    | .error e => .error e
    | .ok (v, tk1) =>
      if count.password + 1 > count.machine then
        .error (.illegalFormat tk1.pos "password must follow machine".toList)
      else
        match netrc.machines.get? (netrc.machines.length - 1) with
        | none => .error .outOfBounds
        | some m =>
          .ok ({ netrc with
                  machines := netrc.machines.set (netrc.machines.length - 1)
                    { m with password := some v.toText } },
               tk1, { count with password := count.password + 1 })
  | .account =>
    match lexer_next_token tk with
    | .error e => .error e
    | .ok (v, tk1) =>
      if count.account + 1 > count.machine then
        .error (.illegalFormat tk1.pos "account must follow machine".toList)
      else
        match netrc.machines.get? (netrc.machines.length - 1) with
        | none => .error .outOfBounds
        | some m =>
          .ok ({ netrc with
                  machines := netrc.machines.set (netrc.machines.length - 1)
                    { m with account := some v.toText } },
               tk1, { count with account := count.account + 1 })
  | .macdef =>
    match lexer_next_token tk with
    | .error e => .error e
    | .ok (v, tk1) =>
      .ok ({ netrc with macdefs := netrc.macdefs ++ [(v.toText, (tk1.next_commands).2)] },
           (tk1.next_commands).1, count)
  | .str s =>
    if unknown_entries then
      .ok ({ netrc with unknown_entries := netrc.unknown_entries ++ [s] }, tk, count)
    else
      .error (.illegalFormat tk.pos ("token: ".toList ++ s))

/-- The `loop` of `Netrc::parse_borrow`, with fuel (each iteration consumes at
    least one character, so `input.length + 1` fuel never runs out; see
    `parse_borrow_ne_outOfFuel`). -/
def parse_loop : Nat → Netrc → Tokens → MachineCount → Bool → Except Error Netrc
  | 0, _, _, _, _ => .error .outOfFuel
  | fuel + 1, netrc, tk, count, flag =>
    match lexer_next_token tk with
    | .error .eof => .ok netrc
    | .error e => .error e
    | .ok (tok, tk1) =>
      match parse_entry netrc tk1 tok count flag with
      | .error e => .error e
      | .ok (netrc1, tk2, count1) => parse_loop fuel netrc1 tk2 count1 flag

/-- `Netrc::parse_borrow`. -/
def parse_borrow (input : List Char) (unknown_entries : Bool) : Except Error Netrc :=
  parse_loop (input.length + 1) Netrc.empty ⟨input, ⟨1, 1⟩⟩ MachineCount.zero unknown_entries

/-- `Netrc::parse` (delegates to `parse_borrow`). -/
def parse (input : List Char) (unknown_entries : Bool) : Except Error Netrc :=
  parse_borrow input unknown_entries

/-- `impl Display for Machine`, name part: `machine {}` or `default`. -/
def namePart (o : Option (List Char)) : List Char :=
  match o with
  | none => "default".toList
  | some v => "machine ".toList ++ v

/-- `impl Display for Machine`, optional field part: `" login {}"` etc.,
    or nothing when the field is absent. -/
def fieldPart (sep : List Char) (o : Option (List Char)) : List Char :=
  match o with
  | none => []
  | some v => sep ++ v

/-- `impl Display for Machine`: the canonical single-line rendering. -/
def machineToText (m : Machine) : List Char :=
  namePart m.name ++ fieldPart " login ".toList m.login ++
    fieldPart " password ".toList m.password ++ fieldPart " account ".toList m.account

/-- Whitespace-splitting of a text into its words (specification-side helper;
    `acc` holds the current word reversed). -/
def words1 : List Char → List Char → List (List Char)
  | acc, [] => if acc = [] then [] else [acc.reverse]
  | acc, c :: cs =>
    if rustIsWhitespace c then
      (if acc = [] then words1 [] cs else acc.reverse :: words1 [] cs)
    else words1 (c :: acc) cs

/-- The whitespace-separated words of a text, in order. -/
def wordsOf (l : List Char) : List (List Char) := words1 [] l

/-- A word: nonempty and free of whitespace. -/
def IsWord (w : List Char) : Prop :=
  w ≠ [] ∧ ∀ c ∈ w, rustIsWhitespace c = false

instance (w : List Char) : Decidable (IsWord w) := by
  unfold IsWord
  infer_instance

/-- A text that is empty or begins with whitespace. -/
def HeadWS (l : List Char) : Prop :=
  l = [] ∨ ∃ c t, l = c :: t ∧ rustIsWhitespace c = true

/-- Decidable equality for `Except`, so concrete parses can be checked by `decide`. -/
instance {ε α : Type} [DecidableEq ε] [DecidableEq α] : DecidableEq (Except ε α) := by
  intro a b
  cases a <;> cases b <;> first
    | exact isFalse (by intro h; exact Except.noConfusion h)
    | rename_i x y
      exact if h : x = y then isTrue (by rw [h]) else
        isFalse (by intro hc; exact h (by injection hc))

/-- The six keywords. -/
def keywords : List (List Char) :=
  [kwMachine, kwDefault, kwLogin, kwPassword, kwAccount, kwMacdef]

/-- The word sequence of one complete `machine <h> login <l> password <p> account <a>`
    tuple. -/
def tupleWords (t : List Char × List Char × List Char × List Char) : List (List Char) :=
  [kwMachine, t.1, kwLogin, t.2.1, kwPassword, t.2.2.1, kwAccount, t.2.2.2]

/-- The word sequence of a list of complete tuples. -/
def tuplesWords : List (List Char × List Char × List Char × List Char) → List (List Char)
  | [] => []
  | t :: ts => tupleWords t ++ tuplesWords ts

/-- The machine record a complete tuple denotes. -/
def tupleMachine (t : List Char × List Char × List Char × List Char) : Machine :=
  ⟨some t.1, some t.2.1, some t.2.2.1, some t.2.2.2⟩

/-- The words of the name part of the rendering. -/
def nameWords (o : Option (List Char)) : List (List Char) :=
  match o with
  | none => [kwDefault]
  | some v => [kwMachine, v]

/-- The words of an optional-field part of the rendering. -/
def optWords (kw : List Char) (o : Option (List Char)) : List (List Char) :=
  match o with
  | none => []
  | some v => [kw, v]

/-- The field value after parsing back a rendered optional field:
    an absent field leaves the old value untouched. -/
def updateOpt (old new : Option (List Char)) : Option (List Char) :=
  match new with
  | none => old
  | some v => some v

/-- Characters consumed from the live buffer by the `next_commands` loop:
    `byteLen l + 1` per processed line, the terminating empty line included. -/
def consumedLen : List (List Char) → Nat
  | [] => 0
  | l :: rest => if l = [] then byteLen l + 1 else (byteLen l + 1) + consumedLen rest


/-! ### Word-splitting lemmas -/

lemma words1_append_nonws (w : List Char) :
    ∀ (acc l : List Char), (∀ c ∈ w, rustIsWhitespace c = false) →
    words1 acc (w ++ l) = words1 (w.reverse ++ acc) l := by
  induction w with
  | nil => intro acc l _; simp
  | cons c w ih =>
    intro acc l hw
    have hc : rustIsWhitespace c = false := hw c (by simp)
    simp only [List.cons_append, words1, hc, Bool.false_eq_true, if_false]
    show words1 (c :: acc) (w ++ l) = words1 ((c :: w).reverse ++ acc) l
    rw [ih (c :: acc) l (fun d hd => hw d (by simp [hd]))]
    simp

lemma wordsOf_ws_cons {c : Char} (l : List Char) (h : rustIsWhitespace c = true) :
    wordsOf (c :: l) = wordsOf l := by
  simp [wordsOf, words1, h]

lemma wordsOf_nil : wordsOf ([] : List Char) = [] := rfl

lemma wordsOf_word_append {w l : List Char} (hw : IsWord w) (hl : HeadWS l) :
    wordsOf (w ++ l) = w :: wordsOf l := by
  obtain ⟨hne, hnw⟩ := hw
  have h1 : wordsOf (w ++ l) = words1 w.reverse l := by
    have := words1_append_nonws w [] l hnw
    simpa [wordsOf] using this
  have hrev : w.reverse ≠ [] := by simpa using hne
  rw [h1]
  rcases hl with rfl | ⟨c, t, rfl, hc⟩
  · simp [words1, hrev, wordsOf]
  · simp [words1, hc, hrev, wordsOf]

lemma wordsOf_word {w : List Char} (hw : IsWord w) : wordsOf w = [w] := by
  have := wordsOf_word_append hw (Or.inl rfl)
  simpa using this

lemma skipWSAux_fst : ∀ (l : List Char) (p : Position),
    (skipWSAux l p).1 = l.dropWhile rustIsWhitespace := by
  intro l
  induction l with
  | nil => intro p; simp [skipWSAux]
  | cons c cs ih =>
    intro p
    cases h : rustIsWhitespace c <;> simp [skipWSAux, h, ih]

lemma takeWordAux_fst : ∀ (l : List Char) (p : Position),
    (takeWordAux l p).1 = l.takeWhile (fun c => !rustIsWhitespace c) := by
  intro l
  induction l with
  | nil => intro p; simp [takeWordAux]
  | cons c cs ih =>
    intro p
    cases h : rustIsWhitespace c <;> simp [takeWordAux, h, ih]

lemma takeWordAux_rest : ∀ (l : List Char) (p : Position),
    (takeWordAux l p).2.1 = l.dropWhile (fun c => !rustIsWhitespace c) := by
  intro l
  induction l with
  | nil => intro p; simp [takeWordAux]
  | cons c cs ih =>
    intro p
    cases h : rustIsWhitespace c <;> simp [takeWordAux, h, ih]

lemma wordsOf_dropWhile : ∀ l : List Char,
    wordsOf (l.dropWhile rustIsWhitespace) = wordsOf l := by
  intro l
  induction l with
  | nil => rfl
  | cons c cs ih =>
    cases h : rustIsWhitespace c
    · simp [List.dropWhile_cons, h]
    · simp [List.dropWhile_cons, h, ih, wordsOf_ws_cons _ h]

lemma dropWhile_head_not {α : Type} (p : α → Bool) :
    ∀ (l : List α) (c : α) (t : List α), l.dropWhile p = c :: t → p c = false := by
  intro l
  induction l with
  | nil => intro c t h; simp at h
  | cons a as ih =>
    intro c t h
    cases ha : p a
    · rw [List.dropWhile_cons, ha] at h
      simp at h
      obtain ⟨rfl, rfl⟩ := h
      exact ha
    · rw [List.dropWhile_cons, ha] at h
      simp at h
      exact ih c t h

lemma words1_acc_ne_nil : ∀ (l acc : List Char), acc ≠ [] → words1 acc l ≠ [] := by
  intro l
  induction l with
  | nil => intro acc h; simp [words1, h]
  | cons c cs ih =>
    intro acc h
    cases hc : rustIsWhitespace c <;> simp [words1, hc, h]
    · exact ih (c :: acc) (by simp)

lemma wordsOf_eq_nil_iff (l : List Char) :
    wordsOf l = [] ↔ l.dropWhile rustIsWhitespace = [] := by
  constructor
  · intro h
    by_contra hne
    obtain ⟨c, t, hct⟩ := List.exists_cons_of_ne_nil hne
    have hc : rustIsWhitespace c = false := dropWhile_head_not _ _ _ _ hct
    have h2 : wordsOf l = words1 [c] t := by
      rw [← wordsOf_dropWhile l, hct]
      simp [wordsOf, words1, hc]
    rw [h2] at h
    exact words1_acc_ne_nil t [c] (by simp) h
  · intro h
    rw [← wordsOf_dropWhile l, h]
    rfl

lemma wordsOf_of_dropWhile_ne_nil (l : List Char)
    (hne : l.dropWhile rustIsWhitespace ≠ []) :
    wordsOf l =
      ((l.dropWhile rustIsWhitespace).takeWhile (fun c => !rustIsWhitespace c)) ::
        wordsOf ((l.dropWhile rustIsWhitespace).dropWhile (fun c => !rustIsWhitespace c)) := by
  set l1 := l.dropWhile rustIsWhitespace with hl1
  obtain ⟨c, t, hct⟩ := List.exists_cons_of_ne_nil hne
  have hc : rustIsWhitespace c = false := dropWhile_head_not _ _ _ _ (hl1 ▸ hct)
  set tw := l1.takeWhile (fun c => !rustIsWhitespace c) with htw
  set dw := l1.dropWhile (fun c => !rustIsWhitespace c) with hdw
  have hsplit : tw ++ dw = l1 := by
    rw [htw, hdw]
    exact List.takeWhile_append_dropWhile _ _
  have htwne : tw ≠ [] := by
    rw [htw, hct]
    simp [List.takeWhile_cons, hc]
  have htwnw : ∀ d ∈ tw, rustIsWhitespace d = false := by
    intro d hd
    have := List.mem_takeWhile_imp hd
    simpa using this
  have h1 : wordsOf l = words1 tw.reverse dw := by
    rw [← wordsOf_dropWhile l, ← hl1, ← hsplit]
    have := words1_append_nonws tw [] dw htwnw
    simpa [wordsOf] using this
  have hrev : tw.reverse ≠ [] := by simpa using htwne
  rw [h1]
  cases hdwc : dw with
  | nil => simp [words1, hrev, wordsOf]
  | cons c' t' =>
    have hc' : rustIsWhitespace c' = true := by
      have := dropWhile_head_not (fun c => !rustIsWhitespace c) l1 c' t' (hdw ▸ hdwc)
      simpa using this
    simp [words1, hc', hrev, wordsOf]

lemma dropWhile_length_le {α : Type} (p : α → Bool) (l : List α) :
    (l.dropWhile p).length ≤ l.length := by
  induction l with
  | nil => simp
  | cons a as ih =>
    rw [List.dropWhile_cons]
    cases p a <;> simp
    · exact Nat.le_succ_of_le ih

/-! ### `next_token` in terms of `wordsOf` -/

lemma skip_whitespace_buf (t : Tokens) :
    (t.skip_whitespace).buf = t.buf.dropWhile rustIsWhitespace := by
  simp [Tokens.skip_whitespace, skipWSAux_fst]

lemma next_token_of_words_nil {t : Tokens} (h : wordsOf t.buf = []) :
    t.next_token = none := by
  have hd : t.buf.dropWhile rustIsWhitespace = [] := (wordsOf_eq_nil_iff _).1 h
  rw [Tokens.next_token]
  rw [skip_whitespace_buf, hd]

lemma next_token_of_words_cons {t : Tokens} {w : List Char} {ws' : List (List Char)}
    (h : wordsOf t.buf = w :: ws') :
    ∃ tk' : Tokens, t.next_token = some (Token.new w, tk') ∧ wordsOf tk'.buf = ws' ∧
      tk'.buf.length < t.buf.length := by
  have hne : t.buf.dropWhile rustIsWhitespace ≠ [] := by
    intro hcon
    rw [(wordsOf_eq_nil_iff _).2 hcon] at h
    exact List.noConfusion h
  have hspec := wordsOf_of_dropWhile_ne_nil t.buf hne
  rw [h] at hspec
  obtain ⟨c, tl, hct⟩ := List.exists_cons_of_ne_nil hne
  have htw : (t.buf.dropWhile rustIsWhitespace).takeWhile (fun c => !rustIsWhitespace c) = w :=
    (List.cons.injEq _ _ _ _ ▸ hspec.symm).1
  have hdw :
      wordsOf ((t.buf.dropWhile rustIsWhitespace).dropWhile (fun c => !rustIsWhitespace c)) = ws' :=
    (List.cons.injEq _ _ _ _ ▸ hspec.symm).2
  have hwne : w ≠ [] := by
    rw [← htw, hct]
    have hc : rustIsWhitespace c = false := dropWhile_head_not _ _ _ _ hct
    simp [List.takeWhile_cons, hc]
  refine ⟨⟨(t.buf.dropWhile rustIsWhitespace).dropWhile (fun c => !rustIsWhitespace c),
            (takeWordAux (t.buf.dropWhile rustIsWhitespace) (t.skip_whitespace).pos).2.2⟩,
          ?_, hdw, ?_⟩
  · rw [Tokens.next_token]
    rw [skip_whitespace_buf, hct]
    have heq : takeWordAux (c :: tl) (t.skip_whitespace).pos =
        takeWordAux (t.buf.dropWhile rustIsWhitespace) (t.skip_whitespace).pos := by rw [hct]
    simp only [heq]
    rw [show (takeWordAux (t.buf.dropWhile rustIsWhitespace) (t.skip_whitespace).pos).1 = w from
          (takeWordAux_fst _ _).trans htw]
    rw [if_neg hwne]
    rw [takeWordAux_rest, hct]
  · have h1 : ((t.buf.dropWhile rustIsWhitespace).dropWhile (fun c => !rustIsWhitespace c)).length
        < (t.buf.dropWhile rustIsWhitespace).length := by
      conv_rhs => rw [← @List.takeWhile_append_dropWhile _ (fun c => !rustIsWhitespace c)
        (t.buf.dropWhile rustIsWhitespace)]
      rw [List.length_append]
      have : 0 < ((t.buf.dropWhile rustIsWhitespace).takeWhile (fun c => !rustIsWhitespace c)).length := by
        rw [htw]
        exact List.length_pos.2 hwne
      omega
    exact lt_of_lt_of_le h1 (dropWhile_length_le _ _)

/-! ### Token lemmas -/

lemma toText_new (s : List Char) : (Token.new s).toText = s := by
  unfold Token.new
  split_ifs with h1 h2 h3 h4 h5 h6 <;> simp [Token.toText, *]

lemma new_of_not_kw {s : List Char}
    (h : s ∉ [kwMachine, kwDefault, kwLogin, kwPassword, kwAccount, kwMacdef]) :
    Token.new s = .str s := by
  simp only [List.mem_cons, List.mem_singleton, not_or] at h
  obtain ⟨h1, h2, h3, h4, h5, h6⟩ := h
  simp [Token.new, h1, h2, h3, h4, h5, by simpa using h6]

/-! ### List helpers -/

lemma get?_append_length {α : Type} (l : List α) (a : α) :
    (l ++ [a]).get? l.length = some a := by
  induction l with
  | nil => rfl
  | cons x xs ih => simpa using ih

lemma set_append_length {α : Type} (l : List α) (a b : α) :
    (l ++ [a]).set l.length b = l ++ [b] := by
  induction l with
  | nil => rfl
  | cons x xs ih => simpa using ih

lemma getElem?_append_length {α : Type} (l : List α) (a : α) :
    (l ++ [a])[l.length]? = some a := by
  induction l with
  | nil => rfl
  | cons x xs ih => simpa using ih

/-! ### One-step unfoldings of the parse loop -/

lemma parse_loop_none {fuel : Nat} {n : Netrc} {tk : Tokens} {c : MachineCount} {f : Bool}
    (h : tk.next_token = none) :
    parse_loop (fuel + 1) n tk c f = .ok n := by
  simp [parse_loop, lexer_next_token, h]

lemma parse_loop_some {fuel : Nat} {n : Netrc} {tk : Tokens} {c : MachineCount} {f : Bool}
    {tok : Token} {tk1 : Tokens} (h : tk.next_token = some (tok, tk1)) :
    parse_loop (fuel + 1) n tk c f =
      match parse_entry n tk1 tok c f with
      | .error e => .error e
      | .ok (n1, tk2, c1) => parse_loop fuel n1 tk2 c1 f := by
  simp [parse_loop, lexer_next_token, h]

/-! ### Running the loop over word streams, one entry at a time -/

lemma run_eof {fuel : Nat} {n : Netrc} {tk : Tokens} {c : MachineCount} {f : Bool}
    (hw : wordsOf tk.buf = []) :
    parse_loop (fuel + 1) n tk c f = .ok n :=
  parse_loop_none (next_token_of_words_nil hw)

lemma run_machine (fuel : Nat) (n : Netrc) (tk : Tokens) (c : MachineCount) (f : Bool)
    (hostW : List Char) (rest : List (List Char)) (n' : Netrc) (c' : MachineCount)
    (hw : wordsOf tk.buf = kwMachine :: hostW :: rest)
    (hinv : c.machine = n.machines.length)
    (hn' : n' = ⟨n.machines ++ [⟨some hostW, none, none, none⟩], n.macdefs, n.unknown_entries⟩)
    (hc' : c' = ⟨c.machine + 1, c.login, c.password, c.account⟩) :
    ∃ tk' : Tokens, wordsOf tk'.buf = rest ∧ tk'.buf.length < tk.buf.length ∧
      parse_loop (fuel + 1) n tk c f = parse_loop fuel n' tk' c' f := by
  subst hn' hc'
  obtain ⟨tk1, h1, hw1, hl1⟩ := next_token_of_words_cons hw
  obtain ⟨tk2, h2, hw2, hl2⟩ := next_token_of_words_cons hw1
  have hke : Token.new kwMachine = .machine := by decide
  rw [hke] at h1
  refine ⟨tk2, hw2, lt_trans hl2 hl1, ?_⟩
  rw [parse_loop_some h1]
  simp [parse_entry, lexer_next_token, h2, hinv, getElem?_append_length, set_append_length,
    toText_new, Machine.empty]

lemma run_default (fuel : Nat) (n : Netrc) (tk : Tokens) (c : MachineCount) (f : Bool)
    (rest : List (List Char)) (n' : Netrc) (c' : MachineCount)
    (hw : wordsOf tk.buf = kwDefault :: rest)
    (hn' : n' = ⟨n.machines ++ [Machine.empty], n.macdefs, n.unknown_entries⟩)
    (hc' : c' = ⟨c.machine + 1, c.login, c.password, c.account⟩) :
    ∃ tk' : Tokens, wordsOf tk'.buf = rest ∧ tk'.buf.length < tk.buf.length ∧
      parse_loop (fuel + 1) n tk c f = parse_loop fuel n' tk' c' f := by
  subst hn' hc'
  obtain ⟨tk1, h1, hw1, hl1⟩ := next_token_of_words_cons hw
  have hke : Token.new kwDefault = .default := by decide
  rw [hke] at h1
  refine ⟨tk1, hw1, hl1, ?_⟩
  rw [parse_loop_some h1]
  simp [parse_entry]

lemma run_login_last (fuel : Nat) (n : Netrc) (tk : Tokens) (c : MachineCount) (f : Bool)
    (base : List Machine) (m : Machine) (v : List Char) (rest : List (List Char))
    (n' : Netrc) (c' : MachineCount)
    (hw : wordsOf tk.buf = kwLogin :: v :: rest)
    (hm : n.machines = base ++ [m])
    (hc : c.login < c.machine)
    (hn' : n' = ⟨base ++ [⟨m.name, some v, m.password, m.account⟩], n.macdefs, n.unknown_entries⟩)
    (hc' : c' = ⟨c.machine, c.login + 1, c.password, c.account⟩) :
    ∃ tk' : Tokens, wordsOf tk'.buf = rest ∧ tk'.buf.length < tk.buf.length ∧
      parse_loop (fuel + 1) n tk c f = parse_loop fuel n' tk' c' f := by
  subst hn' hc'
  obtain ⟨tk1, h1, hw1, hl1⟩ := next_token_of_words_cons hw
  obtain ⟨tk2, h2, hw2, hl2⟩ := next_token_of_words_cons hw1
  have hke : Token.new kwLogin = .login := by decide
  rw [hke] at h1
  refine ⟨tk2, hw2, lt_trans hl2 hl1, ?_⟩
  rw [parse_loop_some h1]
  have hlen : n.machines.length - 1 = base.length := by simp [hm]
  have hnotgt : ¬ c.login + 1 > c.machine := by omega
  simp [parse_entry, lexer_next_token, h2, hnotgt, hm, hlen, getElem?_append_length,
    set_append_length, toText_new]

lemma run_password_last (fuel : Nat) (n : Netrc) (tk : Tokens) (c : MachineCount) (f : Bool)
    (base : List Machine) (m : Machine) (v : List Char) (rest : List (List Char))
    (n' : Netrc) (c' : MachineCount)
    (hw : wordsOf tk.buf = kwPassword :: v :: rest)
    (hm : n.machines = base ++ [m])
    (hc : c.password < c.machine)
    (hn' : n' = ⟨base ++ [⟨m.name, m.login, some v, m.account⟩], n.macdefs, n.unknown_entries⟩)
    (hc' : c' = ⟨c.machine, c.login, c.password + 1, c.account⟩) :
    ∃ tk' : Tokens, wordsOf tk'.buf = rest ∧ tk'.buf.length < tk.buf.length ∧
      parse_loop (fuel + 1) n tk c f = parse_loop fuel n' tk' c' f := by
  subst hn' hc'
  obtain ⟨tk1, h1, hw1, hl1⟩ := next_token_of_words_cons hw
  obtain ⟨tk2, h2, hw2, hl2⟩ := next_token_of_words_cons hw1
  have hke : Token.new kwPassword = .password := by decide
  rw [hke] at h1
  refine ⟨tk2, hw2, lt_trans hl2 hl1, ?_⟩
  rw [parse_loop_some h1]
  have hlen : n.machines.length - 1 = base.length := by simp [hm]
  have hnotgt : ¬ c.password + 1 > c.machine := by omega
  simp [parse_entry, lexer_next_token, h2, hnotgt, hm, hlen, getElem?_append_length,
    set_append_length, toText_new]

lemma run_account_last (fuel : Nat) (n : Netrc) (tk : Tokens) (c : MachineCount) (f : Bool)
    (base : List Machine) (m : Machine) (v : List Char) (rest : List (List Char))
    (n' : Netrc) (c' : MachineCount)
    (hw : wordsOf tk.buf = kwAccount :: v :: rest)
    (hm : n.machines = base ++ [m])
    (hc : c.account < c.machine)
    (hn' : n' = ⟨base ++ [⟨m.name, m.login, m.password, some v⟩], n.macdefs, n.unknown_entries⟩)
    (hc' : c' = ⟨c.machine, c.login, c.password, c.account + 1⟩) :
    ∃ tk' : Tokens, wordsOf tk'.buf = rest ∧ tk'.buf.length < tk.buf.length ∧
      parse_loop (fuel + 1) n tk c f = parse_loop fuel n' tk' c' f := by
  subst hn' hc'
  obtain ⟨tk1, h1, hw1, hl1⟩ := next_token_of_words_cons hw
  obtain ⟨tk2, h2, hw2, hl2⟩ := next_token_of_words_cons hw1
  have hke : Token.new kwAccount = .account := by decide
  rw [hke] at h1
  refine ⟨tk2, hw2, lt_trans hl2 hl1, ?_⟩
  rw [parse_loop_some h1]
  have hlen : n.machines.length - 1 = base.length := by simp [hm]
  have hnotgt : ¬ c.account + 1 > c.machine := by omega
  simp [parse_entry, lexer_next_token, h2, hnotgt, hm, hlen, getElem?_append_length,
    set_append_length, toText_new]

lemma run_unknown (fuel : Nat) (n : Netrc) (tk : Tokens) (c : MachineCount)
    (s : List Char) (rest : List (List Char)) (n' : Netrc)
    (hw : wordsOf tk.buf = s :: rest)
    (hs : Token.new s = .str s)
    (hn' : n' = ⟨n.machines, n.macdefs, n.unknown_entries ++ [s]⟩) :
    ∃ tk' : Tokens, wordsOf tk'.buf = rest ∧ tk'.buf.length < tk.buf.length ∧
      parse_loop (fuel + 1) n tk c true = parse_loop fuel n' tk' c true := by
  subst hn'
  obtain ⟨tk1, h1, hw1, hl1⟩ := next_token_of_words_cons hw
  rw [hs] at h1
  refine ⟨tk1, hw1, hl1, ?_⟩
  rw [parse_loop_some h1]
  simp [parse_entry]

/-! ### Full-tuple entries (claim C1) -/

lemma parse_loop_tuples (ts : List (List Char × List Char × List Char × List Char)) :
    ∀ (fuel : Nat) (n : Netrc) (tk : Tokens) (c : MachineCount) (f : Bool),
    wordsOf tk.buf = tuplesWords ts →
    tk.buf.length < fuel →
    c.machine = n.machines.length →
    c.login ≤ c.machine → c.password ≤ c.machine → c.account ≤ c.machine →
    parse_loop fuel n tk c f =
      .ok ⟨n.machines ++ ts.map tupleMachine, n.macdefs, n.unknown_entries⟩ := by
  induction ts with
  | nil =>
    intro fuel n tk c f hw hfuel _ _ _ _
    cases fuel with
    | zero => omega
    | succ fuel =>
      rw [run_eof (by simpa [tuplesWords] using hw)]
      cases n
      simp
  | cons t ts ih =>
    intro fuel n tk c f hw hfuel hinv hl hp ha
    rw [show tuplesWords (t :: ts) =
          kwMachine :: t.1 :: kwLogin :: t.2.1 :: kwPassword :: t.2.2.1 ::
            kwAccount :: t.2.2.2 :: tuplesWords ts from rfl] at hw
    cases fuel with
    | zero => omega
    | succ fuel =>
      obtain ⟨tk1, hw1, hl1, heq1⟩ := run_machine fuel n tk c f t.1 _ _ _ hw hinv rfl rfl
      rw [heq1]
      cases fuel with
      | zero => omega
      | succ fuel =>
        obtain ⟨tk2, hw2, hl2, heq2⟩ := run_login_last fuel
          ⟨n.machines ++ [⟨some t.1, none, none, none⟩], n.macdefs, n.unknown_entries⟩ tk1
          ⟨c.machine + 1, c.login, c.password, c.account⟩ f
          n.machines ⟨some t.1, none, none, none⟩ t.2.1 _
          ⟨n.machines ++ [⟨some t.1, some t.2.1, none, none⟩], n.macdefs, n.unknown_entries⟩
          ⟨c.machine + 1, c.login + 1, c.password, c.account⟩
          hw1 rfl (Nat.lt_succ_of_le hl) rfl rfl
        rw [heq2]
        cases fuel with
        | zero => omega
        | succ fuel =>
          obtain ⟨tk3, hw3, hl3, heq3⟩ := run_password_last fuel
            ⟨n.machines ++ [⟨some t.1, some t.2.1, none, none⟩], n.macdefs, n.unknown_entries⟩ tk2
            ⟨c.machine + 1, c.login + 1, c.password, c.account⟩ f
            n.machines ⟨some t.1, some t.2.1, none, none⟩ t.2.2.1 _
            ⟨n.machines ++ [⟨some t.1, some t.2.1, some t.2.2.1, none⟩], n.macdefs,
              n.unknown_entries⟩
            ⟨c.machine + 1, c.login + 1, c.password + 1, c.account⟩
            hw2 rfl (Nat.lt_succ_of_le hp) rfl rfl
          rw [heq3]
          cases fuel with
          | zero => omega
          | succ fuel =>
            obtain ⟨tk4, hw4, hl4, heq4⟩ := run_account_last fuel
              ⟨n.machines ++ [⟨some t.1, some t.2.1, some t.2.2.1, none⟩], n.macdefs,
                n.unknown_entries⟩ tk3
              ⟨c.machine + 1, c.login + 1, c.password + 1, c.account⟩ f
              n.machines ⟨some t.1, some t.2.1, some t.2.2.1, none⟩ t.2.2.2 _
              ⟨n.machines ++ [⟨some t.1, some t.2.1, some t.2.2.1, some t.2.2.2⟩], n.macdefs,
                n.unknown_entries⟩
              ⟨c.machine + 1, c.login + 1, c.password + 1, c.account + 1⟩
              hw3 rfl (Nat.lt_succ_of_le ha) rfl rfl
            rw [heq4]
            rw [ih fuel _ tk4 _ f hw4 (by omega) (by simp [hinv])
                  (by simp [hl]) (by simp [hp]) (by simp [ha])]
            simp [tupleMachine]

/-! ### `default` entries (claim C8) -/

lemma parse_loop_defaults (k : Nat) :
    ∀ (fuel : Nat) (n : Netrc) (tk : Tokens) (c : MachineCount) (f : Bool),
    wordsOf tk.buf = List.replicate k kwDefault →
    tk.buf.length < fuel →
    parse_loop fuel n tk c f =
      .ok ⟨n.machines ++ List.replicate k Machine.empty, n.macdefs, n.unknown_entries⟩ := by
  induction k with
  | zero =>
    intro fuel n tk c f hw hfuel
    cases fuel with
    | zero => omega
    | succ fuel =>
      rw [run_eof (by simpa using hw)]
      cases n
      simp
  | succ k ih =>
    intro fuel n tk c f hw hfuel
    rw [List.replicate_succ] at hw
    cases fuel with
    | zero => omega
    | succ fuel =>
      obtain ⟨tk1, hw1, hl1, heq1⟩ := run_default fuel n tk c f _ _ _ hw rfl rfl
      rw [heq1]
      rw [ih fuel _ tk1 _ f hw1 (by omega)]
      simp [List.replicate_succ]

/-! ### Unknown entries under tolerance (claim C5) -/

lemma parse_loop_unknowns (ws' : List (List Char)) :
    ∀ (fuel : Nat) (n : Netrc) (tk : Tokens) (c : MachineCount),
    wordsOf tk.buf = ws' →
    (∀ w ∈ ws', Token.new w = .str w) →
    tk.buf.length < fuel →
    parse_loop fuel n tk c true =
      .ok ⟨n.machines, n.macdefs, n.unknown_entries ++ ws'⟩ := by
  induction ws' with
  | nil =>
    intro fuel n tk c hw _ hfuel
    cases fuel with
    | zero => omega
    | succ fuel =>
      rw [run_eof hw]
      cases n
      simp
  | cons w ws' ih =>
    intro fuel n tk c hw hstr hfuel
    cases fuel with
    | zero => omega
    | succ fuel =>
      obtain ⟨tk1, hw1, hl1, heq1⟩ := run_unknown fuel n tk c w _ _ hw (hstr w (by simp)) rfl
      rw [heq1]
      rw [ih fuel _ tk1 _ hw1 (fun d hd => hstr d (by simp [hd])) (by omega)]
      simp

/-! ### The counter invariant and absence of out-of-range accesses -/

lemma lexer_error_eof {tk : Tokens} {e : Error} (h : lexer_next_token tk = .error e) :
    e = .eof := by
  unfold lexer_next_token at h
  cases htk : tk.next_token with
  | none => rw [htk] at h; exact (Except.error.injEq _ _ ▸ h).symm
  | some x => rw [htk] at h; exact absurd h (by simp)

lemma parse_entry_ok_inv {n : Netrc} {tk : Tokens} {tok : Token} {c : MachineCount} {f : Bool}
    {n1 : Netrc} {tk1 : Tokens} {c1 : MachineCount}
    (hinv : c.machine = n.machines.length)
    (h : parse_entry n tk tok c f = .ok (n1, tk1, c1)) :
    c1.machine = n1.machines.length := by
  cases tok with
  | machine =>
    rw [parse_entry] at h
    split at h
    · exact absurd h (by simp)
    · split at h
      · exact absurd h (by simp)
      · simp only [Except.ok.injEq, Prod.mk.injEq] at h
        obtain ⟨rfl, rfl, rfl⟩ := h
        simp [hinv]
  | default =>
    rw [parse_entry] at h
    simp only [Except.ok.injEq, Prod.mk.injEq] at h
    obtain ⟨rfl, rfl, rfl⟩ := h
    simp [hinv]
  | login =>
    rw [parse_entry] at h
    split at h
    · exact absurd h (by simp)
    · split at h
      · exact absurd h (by simp)
      · split at h
        · exact absurd h (by simp)
        · simp only [Except.ok.injEq, Prod.mk.injEq] at h
          obtain ⟨rfl, rfl, rfl⟩ := h
          simp [hinv]
  | password =>
    rw [parse_entry] at h
    split at h
    · exact absurd h (by simp)
    · split at h
      · exact absurd h (by simp)
      · split at h
        · exact absurd h (by simp)
        · simp only [Except.ok.injEq, Prod.mk.injEq] at h
          obtain ⟨rfl, rfl, rfl⟩ := h
          simp [hinv]
  | account =>
    rw [parse_entry] at h
    split at h
    · exact absurd h (by simp)
    · split at h
      · exact absurd h (by simp)
      · split at h
        · exact absurd h (by simp)
        · simp only [Except.ok.injEq, Prod.mk.injEq] at h
          obtain ⟨rfl, rfl, rfl⟩ := h
          simp [hinv]
  | macdef =>
    rw [parse_entry] at h
    split at h
    · exact absurd h (by simp)
    · simp only [Except.ok.injEq, Prod.mk.injEq] at h
      obtain ⟨rfl, rfl, rfl⟩ := h
      simpa using hinv
  | str s =>
    rw [parse_entry] at h
    split at h
    · simp only [Except.ok.injEq, Prod.mk.injEq] at h
      obtain ⟨rfl, rfl, rfl⟩ := h
      simpa using hinv
    · exact absurd h (by simp)

lemma parse_entry_ne_oob {n : Netrc} {tk : Tokens} {tok : Token} {c : MachineCount} {f : Bool}
    (hinv : c.machine = n.machines.length) :
    parse_entry n tk tok c f ≠ .error .outOfBounds := by
  intro h
  cases tok with
  | machine =>
    rw [parse_entry] at h
    split at h
    · rename_i e hlt
      rw [lexer_error_eof hlt] at h
      exact absurd h (by simp)
    · split at h
      · rename_i hg
        rw [hinv, get?_append_length] at hg
        exact absurd hg (by simp)
      · exact absurd h (by simp)
  | default =>
    rw [parse_entry] at h
    exact absurd h (by simp)
  | login =>
    rw [parse_entry] at h
    split at h
    · rename_i e hlt
      rw [lexer_error_eof hlt] at h
      exact absurd h (by simp)
    · split at h
      · exact absurd h (by simp)
      · split at h
        · rename_i hle _ hg
          have hge := List.get?_eq_none.1 hg
          simp only [not_lt] at hle
          omega
        · exact absurd h (by simp)
  | password =>
    rw [parse_entry] at h
    split at h
    · rename_i e hlt
      rw [lexer_error_eof hlt] at h
      exact absurd h (by simp)
    · split at h
      · exact absurd h (by simp)
      · split at h
        · rename_i hle _ hg
          have hge := List.get?_eq_none.1 hg
          simp only [not_lt] at hle
          omega
        · exact absurd h (by simp)
  | account =>
    rw [parse_entry] at h
    split at h
    · rename_i e hlt
      rw [lexer_error_eof hlt] at h
      exact absurd h (by simp)
    · split at h
      · exact absurd h (by simp)
      · split at h
        · rename_i hle _ hg
          have hge := List.get?_eq_none.1 hg
          simp only [not_lt] at hle
          omega
        · exact absurd h (by simp)
  | macdef =>
    rw [parse_entry] at h
    split at h
    · rename_i e hlt
      rw [lexer_error_eof hlt] at h
      exact absurd h (by simp)
    · exact absurd h (by simp)
  | str s =>
    rw [parse_entry] at h
    split at h
    · exact absurd h (by simp)
    · exact absurd h (by simp)

lemma parse_loop_ne_oob : ∀ (fuel : Nat) (n : Netrc) (tk : Tokens) (c : MachineCount) (f : Bool),
    c.machine = n.machines.length →
    parse_loop fuel n tk c f ≠ .error .outOfBounds := by
  intro fuel
  induction fuel with
  | zero => intro n tk c f _; simp [parse_loop]
  | succ fuel ih =>
    intro n tk c f hinv h
    rw [parse_loop] at h
    split at h
    · exact absurd h (by simp)
    · rename_i x e hne heq
      exact hne (lexer_error_eof heq)
    · split at h
      · rename_i tok tk1 hlt e hpe
        simp only [Except.error.injEq] at h
        exact parse_entry_ne_oob hinv (h ▸ hpe)
      · rename_i tok tk1 hlt n1 tk2 c1 hpe
        exact ih n1 tk2 c1 f (parse_entry_ok_inv hinv hpe) h

lemma parse_borrow_ne_oob (input : List Char) (f : Bool) :
    parse_borrow input f ≠ .error .outOfBounds :=
  parse_loop_ne_oob _ _ _ _ _ rfl

/-! ### Rendering and the round-trip machinery (claim C2) -/

lemma updateOpt_none (o : Option (List Char)) : updateOpt none o = o := by
  cases o <;> rfl

lemma headWS_append {a b : List Char} (ha : HeadWS a) (hb : HeadWS b) :
    HeadWS (a ++ b) := by
  rcases ha with rfl | ⟨c, t, rfl, hc⟩
  · simpa using hb
  · exact Or.inr ⟨c, t ++ b, by simp, hc⟩

lemma headWS_fieldPart {sep : List Char} (o : Option (List Char)) {s0 : List Char}
    (hsep : sep = ' ' :: s0) : HeadWS (fieldPart sep o) := by
  cases o with
  | none => exact Or.inl rfl
  | some v =>
    subst hsep
    exact Or.inr ⟨' ', s0 ++ v, by simp [fieldPart], by decide⟩

lemma wordsOf_fieldPart (kwS sep : List Char) (o : Option (List Char)) (r : List Char)
    (hsep : sep = ' ' :: (kwS ++ [' ']))
    (hkw : IsWord kwS)
    (ho : ∀ v, o = some v → IsWord v)
    (hr : HeadWS r) :
    wordsOf (fieldPart sep o ++ r) = optWords kwS o ++ wordsOf r := by
  cases o with
  | none => simp [fieldPart, optWords]
  | some v =>
    subst hsep
    have hv := ho v rfl
    have hshape : ((' ' :: (kwS ++ [' '])) ++ v) ++ r = ' ' :: (kwS ++ (' ' :: (v ++ r))) := by
      simp [List.append_assoc]
    simp only [fieldPart]
    rw [hshape]
    rw [wordsOf_ws_cons _ (by decide)]
    rw [wordsOf_word_append hkw (Or.inr ⟨' ', v ++ r, rfl, by decide⟩)]
    rw [wordsOf_ws_cons _ (by decide)]
    rw [wordsOf_word_append hv hr]
    simp [optWords]

lemma wordsOf_namePart (o : Option (List Char)) (r : List Char)
    (ho : ∀ v, o = some v → IsWord v) (hr : HeadWS r) :
    wordsOf (namePart o ++ r) = nameWords o ++ wordsOf r := by
  cases o with
  | none =>
    simp only [namePart, nameWords]
    rw [wordsOf_word_append (by constructor <;> decide) hr]
    rfl
  | some v =>
    simp only [namePart, nameWords]
    have hv := ho v rfl
    have hshape : ("machine ".toList ++ v) ++ r = "machine".toList ++ (' ' :: (v ++ r)) := rfl
    rw [hshape]
    rw [wordsOf_word_append (by constructor <;> decide) (Or.inr ⟨' ', v ++ r, rfl, by decide⟩)]
    rw [wordsOf_ws_cons _ (by decide)]
    rw [wordsOf_word_append hv hr]
    rfl

lemma wordsOf_machineToText (m : Machine)
    (hn : ∀ v, m.name = some v → IsWord v)
    (hl : ∀ v, m.login = some v → IsWord v)
    (hp : ∀ v, m.password = some v → IsWord v)
    (ha : ∀ v, m.account = some v → IsWord v) :
    wordsOf (machineToText m) =
      nameWords m.name ++ (optWords kwLogin m.login ++ (optWords kwPassword m.password ++
        optWords kwAccount m.account)) := by
  have hshape : machineToText m =
      namePart m.name ++ (fieldPart " login ".toList m.login ++
        (fieldPart " password ".toList m.password ++
          (fieldPart " account ".toList m.account ++ []))) := by
    simp [machineToText, List.append_assoc]
  have hsepL : " login ".toList = ' ' :: (kwLogin ++ [' ']) := by decide
  have hsepP : " password ".toList = ' ' :: (kwPassword ++ [' ']) := by decide
  have hsepA : " account ".toList = ' ' :: (kwAccount ++ [' ']) := by decide
  have hwsA : HeadWS (fieldPart " account ".toList m.account ++ []) :=
    headWS_append (headWS_fieldPart m.account hsepA) (Or.inl rfl)
  have hwsP : HeadWS (fieldPart " password ".toList m.password ++
      (fieldPart " account ".toList m.account ++ [])) :=
    headWS_append (headWS_fieldPart m.password hsepP) hwsA
  have hwsL : HeadWS (fieldPart " login ".toList m.login ++
      (fieldPart " password ".toList m.password ++
        (fieldPart " account ".toList m.account ++ []))) :=
    headWS_append (headWS_fieldPart m.login hsepL) hwsP
  rw [hshape]
  rw [wordsOf_namePart _ _ hn hwsL]
  rw [wordsOf_fieldPart kwLogin _ _ _ hsepL (by constructor <;> decide) hl hwsP]
  rw [wordsOf_fieldPart kwPassword _ _ _ hsepP (by constructor <;> decide) hp hwsA]
  rw [wordsOf_fieldPart kwAccount _ _ _ hsepA (by constructor <;> decide) ha (Or.inl rfl)]
  simp [wordsOf_nil]

lemma run_opt_account (ac : Option (List Char)) :
    ∀ (fuel : Nat) (n : Netrc) (tk : Tokens) (c : MachineCount) (f : Bool)
      (base : List Machine) (m : Machine),
    wordsOf tk.buf = optWords kwAccount ac →
    tk.buf.length < fuel →
    n.machines = base ++ [m] →
    c.account < c.machine →
    parse_loop fuel n tk c f =
      .ok ⟨base ++ [⟨m.name, m.login, m.password, updateOpt m.account ac⟩], n.macdefs,
           n.unknown_entries⟩ := by
  intro fuel n tk c f base m hw hfuel hm hc
  cases ac with
  | none =>
    cases fuel with
    | zero => omega
    | succ fuel =>
      rw [run_eof (by simpa [optWords] using hw)]
      rw [show (⟨m.name, m.login, m.password, updateOpt m.account none⟩ : Machine) = m from rfl,
        ← hm]
  | some v =>
    cases fuel with
    | zero => omega
    | succ fuel =>
      obtain ⟨tk1, hw1, hl1, heq1⟩ := run_account_last fuel n tk c f base m v []
        ⟨base ++ [⟨m.name, m.login, m.password, some v⟩], n.macdefs, n.unknown_entries⟩
        ⟨c.machine, c.login, c.password, c.account + 1⟩
        (by simpa [optWords] using hw) hm hc rfl rfl
      rw [heq1]
      cases fuel with
      | zero => omega
      | succ fuel =>
        rw [run_eof hw1]
        simp [updateOpt]

lemma run_opt_password (pw ac : Option (List Char)) :
    ∀ (fuel : Nat) (n : Netrc) (tk : Tokens) (c : MachineCount) (f : Bool)
      (base : List Machine) (m : Machine),
    wordsOf tk.buf = optWords kwPassword pw ++ optWords kwAccount ac →
    tk.buf.length < fuel →
    n.machines = base ++ [m] →
    c.password < c.machine →
    c.account < c.machine →
    parse_loop fuel n tk c f =
      .ok ⟨base ++ [⟨m.name, m.login, updateOpt m.password pw, updateOpt m.account ac⟩],
           n.macdefs, n.unknown_entries⟩ := by
  intro fuel n tk c f base m hw hfuel hm hcp hca
  cases pw with
  | none =>
    have h := run_opt_account ac fuel n tk c f base m (by simpa [optWords] using hw) hfuel hm hca
    rw [h]
    simp [updateOpt]
  | some v =>
    cases fuel with
    | zero => omega
    | succ fuel =>
      obtain ⟨tk1, hw1, hl1, heq1⟩ := run_password_last fuel n tk c f base m v
        (optWords kwAccount ac)
        ⟨base ++ [⟨m.name, m.login, some v, m.account⟩], n.macdefs, n.unknown_entries⟩
        ⟨c.machine, c.login, c.password + 1, c.account⟩
        (by simpa [optWords] using hw) hm hcp rfl rfl
      rw [heq1]
      have h := run_opt_account ac fuel
        ⟨base ++ [⟨m.name, m.login, some v, m.account⟩], n.macdefs, n.unknown_entries⟩ tk1
        ⟨c.machine, c.login, c.password + 1, c.account⟩ f base
        ⟨m.name, m.login, some v, m.account⟩ hw1 (by omega) rfl hca
      rw [h]
      simp [updateOpt]

lemma run_opt_login (lo pw ac : Option (List Char)) :
    ∀ (fuel : Nat) (n : Netrc) (tk : Tokens) (c : MachineCount) (f : Bool)
      (base : List Machine) (m : Machine),
    wordsOf tk.buf = optWords kwLogin lo ++ (optWords kwPassword pw ++ optWords kwAccount ac) →
    tk.buf.length < fuel →
    n.machines = base ++ [m] →
    c.login < c.machine →
    c.password < c.machine →
    c.account < c.machine →
    parse_loop fuel n tk c f =
      .ok ⟨base ++ [⟨m.name, updateOpt m.login lo, updateOpt m.password pw,
                     updateOpt m.account ac⟩],
           n.macdefs, n.unknown_entries⟩ := by
  intro fuel n tk c f base m hw hfuel hm hcl hcp hca
  cases lo with
  | none =>
    have h := run_opt_password pw ac fuel n tk c f base m (by simpa [optWords] using hw)
      hfuel hm hcp hca
    rw [h]
    simp [updateOpt]
  | some v =>
    cases fuel with
    | zero => omega
    | succ fuel =>
      obtain ⟨tk1, hw1, hl1, heq1⟩ := run_login_last fuel n tk c f base m v
        (optWords kwPassword pw ++ optWords kwAccount ac)
        ⟨base ++ [⟨m.name, some v, m.password, m.account⟩], n.macdefs, n.unknown_entries⟩
        ⟨c.machine, c.login + 1, c.password, c.account⟩
        (by simpa [optWords] using hw) hm hcl rfl rfl
      rw [heq1]
      have h := run_opt_password pw ac fuel
        ⟨base ++ [⟨m.name, some v, m.password, m.account⟩], n.macdefs, n.unknown_entries⟩ tk1
        ⟨c.machine, c.login + 1, c.password, c.account⟩ f base
        ⟨m.name, some v, m.password, m.account⟩ hw1 (by omega) rfl hcp hca
      rw [h]
      simp [updateOpt]

/-! ### Characterisation of `next_commands` (claim C6) -/

lemma finishLine_subset {acc : List Char} {c : Char} (h : c ∈ finishLine acc) : c ∈ acc := by
  unfold finishLine at h
  split at h
  · simp at h
    simp [h]
  · simpa using h

lemma linesAux_no_nl : ∀ (s acc : List Char), (∀ c ∈ acc, c ≠ '\n') →
    ∀ l ∈ linesAux s acc, '\n' ∉ l := by
  intro s
  induction s with
  | nil =>
    intro acc hacc l hl hmem
    simp [linesAux] at hl
    subst hl
    simp at hmem
    exact hacc '\n' hmem rfl
  | cons c cs ih =>
    intro acc hacc l hl hmem
    by_cases hc : c = '\n'
    · subst hc
      cases cs with
      | nil =>
        simp [linesAux] at hl
        subst hl
        exact hacc '\n' (finishLine_subset hmem) rfl
      | cons d ds =>
        rw [show linesAux ('\n' :: d :: ds) acc = finishLine acc :: linesAux (d :: ds) [] from by
              simp [linesAux]] at hl
        rcases List.mem_cons.1 hl with rfl | hl
        · exact hacc '\n' (finishLine_subset hmem) rfl
        · exact ih [] (by simp) l hl hmem
    · simp only [linesAux, if_neg hc] at hl
      refine ih (c :: acc) ?_ l hl hmem
      intro d hd
      rcases List.mem_cons.1 hd with rfl | hd
      · exact hc
      · exact hacc d hd

lemma lines_no_nl {s l : List Char} (hl : l ∈ lines s) : l ≠ ['\n'] := by
  intro hcon
  cases s with
  | nil => simp [lines] at hl
  | cons c cs =>
    have := linesAux_no_nl (c :: cs) [] (by simp) l hl
    rw [hcon] at this
    simp at this

lemma consumeLines_spec : ∀ (ls : List (List Char)) (buf : List Char) (cmds : List (List Char)),
    (∀ l ∈ ls, l ≠ ['\n']) →
    (consumeLines ls buf cmds).2 = cmds ++ (ls.takeWhile (fun l => !l.isEmpty)).map trimText ∧
    (consumeLines ls buf cmds).1 = buf.drop (consumedLen ls) := by
  intro ls
  induction ls with
  | nil => intro buf cmds _; simp [consumeLines, consumedLen]
  | cons l rest ih =>
    intro buf cmds hnl
    by_cases hl : l = []
    · subst hl
      simp [consumeLines, consumedLen, byteLen, List.takeWhile_cons]
    · have hcond : ¬([] = l ∨ l = ['\n']) := by
        push_neg
        exact ⟨fun hc => hl hc.symm, hnl l (by simp)⟩
      have hcond2 : ¬(l = [] ∨ l = ['\n']) := by
        push_neg
        exact ⟨hl, hnl l (by simp)⟩
      obtain ⟨ih2, ih1⟩ := ih (buf.drop (byteLen l + 1)) (cmds ++ [trimText l])
        (fun d hd => hnl d (by simp [hd]))
      constructor
      · rw [show consumeLines (l :: rest) buf cmds =
              consumeLines rest (buf.drop (byteLen l + 1)) (cmds ++ [trimText l]) from by
            simp [consumeLines, hcond2]]
        rw [ih2]
        have hne : (!l.isEmpty) = true := by
          simp [List.isEmpty_iff, hl]
        rw [List.takeWhile_cons, hne]
        simp
      · rw [show consumeLines (l :: rest) buf cmds =
              consumeLines rest (buf.drop (byteLen l + 1)) (cmds ++ [trimText l]) from by
            simp [consumeLines, hcond2]]
        rw [ih1]
        rw [List.drop_drop]
        rw [show consumedLen (l :: rest) = (byteLen l + 1) + consumedLen rest from by
            simp [consumedLen, hl]]

lemma next_commands_spec (t : Tokens) :
    (t.next_commands).2 =
      ((lines (t.skip_whitespace).buf).takeWhile (fun l => !l.isEmpty)).map trimText ∧
    (t.next_commands).1.buf =
      (t.skip_whitespace).buf.drop (consumedLen (lines (t.skip_whitespace).buf)) ∧
    (t.next_commands).1.pos =
      ⟨(t.skip_whitespace).pos.row + (t.next_commands).2.length, 1⟩ := by
  have hnl : ∀ l ∈ lines (t.skip_whitespace).buf, l ≠ ['\n'] := fun l hl => lines_no_nl hl
  obtain ⟨h2, h1⟩ := consumeLines_spec (lines (t.skip_whitespace).buf)
    (t.skip_whitespace).buf [] hnl
  refine ⟨?_, ?_, ?_⟩
  · show (consumeLines (lines (t.skip_whitespace).buf) (t.skip_whitespace).buf []).2 = _
    rw [h2]
    simp
  · show (consumeLines (lines (t.skip_whitespace).buf) (t.skip_whitespace).buf []).1 = _
    rw [h1]
  · rfl

/-! ### The fuel is sufficient: each loop iteration consumes at least one character -/

lemma consumeLines_fst_length : ∀ (ls : List (List Char)) (buf : List Char)
    (cmds : List (List Char)), (consumeLines ls buf cmds).1.length ≤ buf.length := by
  intro ls
  induction ls with
  | nil => intro buf cmds; simp [consumeLines]
  | cons l rest ih =>
    intro buf cmds
    by_cases hl : l = [] ∨ l = ['\n']
    · simp only [consumeLines, if_pos hl]
      simp [List.length_drop]
    · simp only [consumeLines, if_neg hl]
      refine le_trans (ih _ _) ?_
      simp [List.length_drop]

lemma next_commands_buf_length (t : Tokens) :
    (t.next_commands).1.buf.length ≤ t.buf.length := by
  have h1 : (t.skip_whitespace).buf.length ≤ t.buf.length := by
    rw [skip_whitespace_buf]
    exact dropWhile_length_le _ _
  exact le_trans (consumeLines_fst_length (lines (t.skip_whitespace).buf)
    (t.skip_whitespace).buf []) h1

lemma next_token_some_length {tk : Tokens} {tok : Token} {tk1 : Tokens}
    (h : tk.next_token = some (tok, tk1)) : tk1.buf.length < tk.buf.length := by
  cases hw : wordsOf tk.buf with
  | nil => rw [next_token_of_words_nil hw] at h; exact absurd h (by simp)
  | cons w ws =>
    obtain ⟨tk', h', hw', hl'⟩ := next_token_of_words_cons hw
    rw [h'] at h
    simp only [Option.some.injEq, Prod.mk.injEq] at h
    obtain ⟨-, rfl⟩ := h
    exact hl'

lemma lexer_ok_length {tk : Tokens} {tok : Token} {tk1 : Tokens}
    (h : lexer_next_token tk = .ok (tok, tk1)) : tk1.buf.length < tk.buf.length := by
  unfold lexer_next_token at h
  cases htk : tk.next_token with
  | none => rw [htk] at h; exact absurd h (by simp)
  | some x =>
    rw [htk] at h
    simp only [Except.ok.injEq] at h
    subst h
    exact next_token_some_length htk

lemma parse_entry_length_le {n : Netrc} {tk : Tokens} {tok : Token} {c : MachineCount}
    {f : Bool} {n1 : Netrc} {tk1 : Tokens} {c1 : MachineCount}
    (h : parse_entry n tk tok c f = .ok (n1, tk1, c1)) :
    tk1.buf.length ≤ tk.buf.length := by
  cases tok with
  | machine =>
    rw [parse_entry] at h
    split at h
    · exact absurd h (by simp)
    · rename_i host tk' hlt
      split at h
      · exact absurd h (by simp)
      · simp only [Except.ok.injEq, Prod.mk.injEq] at h
        obtain ⟨-, rfl, -⟩ := h
        exact le_of_lt (lexer_ok_length hlt)
  | default =>
    rw [parse_entry] at h
    simp only [Except.ok.injEq, Prod.mk.injEq] at h
    obtain ⟨-, rfl, -⟩ := h
    exact le_refl _
  | login =>
    rw [parse_entry] at h
    split at h
    · exact absurd h (by simp)
    · rename_i v tk' hlt
      split at h
      · exact absurd h (by simp)
      · split at h
        · exact absurd h (by simp)
        · simp only [Except.ok.injEq, Prod.mk.injEq] at h
          obtain ⟨-, rfl, -⟩ := h
          exact le_of_lt (lexer_ok_length hlt)
  | password =>
    rw [parse_entry] at h
    split at h
    · exact absurd h (by simp)
    · rename_i v tk' hlt
      split at h
      · exact absurd h (by simp)
      · split at h
        · exact absurd h (by simp)
        · simp only [Except.ok.injEq, Prod.mk.injEq] at h
          obtain ⟨-, rfl, -⟩ := h
          exact le_of_lt (lexer_ok_length hlt)
  | account =>
    rw [parse_entry] at h
    split at h
    · exact absurd h (by simp)
    · rename_i v tk' hlt
      split at h
      · exact absurd h (by simp)
      · split at h
        · exact absurd h (by simp)
        · simp only [Except.ok.injEq, Prod.mk.injEq] at h
          obtain ⟨-, rfl, -⟩ := h
          exact le_of_lt (lexer_ok_length hlt)
  | macdef =>
    rw [parse_entry] at h
    split at h
    · exact absurd h (by simp)
    · rename_i v tk' hlt
      simp only [Except.ok.injEq, Prod.mk.injEq] at h
      obtain ⟨-, rfl, -⟩ := h
      exact le_trans (next_commands_buf_length tk') (le_of_lt (lexer_ok_length hlt))
  | str s =>
    rw [parse_entry] at h
    split at h
    · simp only [Except.ok.injEq, Prod.mk.injEq] at h
      obtain ⟨-, rfl, -⟩ := h
      exact le_refl _
    · exact absurd h (by simp)

lemma parse_entry_ne_fuel {n : Netrc} {tk : Tokens} {tok : Token} {c : MachineCount}
    {f : Bool} : parse_entry n tk tok c f ≠ .error .outOfFuel := by
  intro h
  cases tok with
  | machine =>
    rw [parse_entry] at h
    split at h
    · rename_i e hlt
      rw [lexer_error_eof hlt] at h
      exact absurd h (by simp)
    · split at h
      · exact absurd h (by simp)
      · exact absurd h (by simp)
  | default =>
    rw [parse_entry] at h
    exact absurd h (by simp)
  | login =>
    rw [parse_entry] at h
    split at h
    · rename_i e hlt
      rw [lexer_error_eof hlt] at h
      exact absurd h (by simp)
    · split at h
      · exact absurd h (by simp)
      · split at h
        · exact absurd h (by simp)
        · exact absurd h (by simp)
  | password =>
    rw [parse_entry] at h
    split at h
    · rename_i e hlt
      rw [lexer_error_eof hlt] at h
      exact absurd h (by simp)
    · split at h
      · exact absurd h (by simp)
      · split at h
        · exact absurd h (by simp)
        · exact absurd h (by simp)
  | account =>
    rw [parse_entry] at h
    split at h
    · rename_i e hlt
      rw [lexer_error_eof hlt] at h
      exact absurd h (by simp)
    · split at h
      · exact absurd h (by simp)
      · split at h
        · exact absurd h (by simp)
        · exact absurd h (by simp)
  | macdef =>
    rw [parse_entry] at h
    split at h
    · rename_i e hlt
      rw [lexer_error_eof hlt] at h
      exact absurd h (by simp)
    · exact absurd h (by simp)
  | str s =>
    rw [parse_entry] at h
    split at h
    · exact absurd h (by simp)
    · exact absurd h (by simp)

lemma parse_loop_ne_fuel : ∀ (fuel : Nat) (n : Netrc) (tk : Tokens) (c : MachineCount)
    (f : Bool), tk.buf.length < fuel → parse_loop fuel n tk c f ≠ .error .outOfFuel := by
  intro fuel
  induction fuel with
  | zero => intro n tk c f hf h; omega
  | succ fuel ih =>
    intro n tk c f hf h
    rw [parse_loop] at h
    split at h
    · exact absurd h (by simp)
    · rename_i x e hne heq
      exact hne (lexer_error_eof heq)
    · split at h
      · rename_i tok tk1 hlt e hpe
        simp only [Except.error.injEq] at h
        exact parse_entry_ne_fuel (h ▸ hpe)
      · rename_i tok tk1 hlt xres n1 tk2 c1 hpe
        have h1 : tk1.buf.length < tk.buf.length := lexer_ok_length hlt
        have h2 : tk2.buf.length ≤ tk1.buf.length := parse_entry_length_le hpe
        exact ih n1 tk2 c1 f (by omega) h

/-- The fuel `input.length + 1` supplied by `parse_borrow` is always sufficient: the
fuel-exhaustion marker is unreachable, so the fuel-based loop is faithful to the
source's unbounded `loop`. -/
theorem parse_borrow_ne_outOfFuel (input : List Char) (f : Bool) :
    parse_borrow input f ≠ .error .outOfFuel :=
  parse_loop_ne_fuel _ _ _ _ _ (Nat.lt_succ_self _)

/-! ## The claims -/

/-- Claim C1: for every input whose whitespace-separated words form a sequence of
complete `machine <h> login <l> password <p> account <a>` tuples, with none of the
value words equal to a recognized keyword, `parse` under either tolerance setting
succeeds with exactly one `Machine` per tuple, in input order, carrying those field
values, and with empty `macdefs` and `unknown_entries`. -/
theorem c1_complete_tuples (ts : List (List Char × List Char × List Char × List Char))
    (input : List Char) (f : Bool)
    (hw : wordsOf input = tuplesWords ts)
    (hkw : ∀ t ∈ ts, t.1 ∉ keywords ∧ t.2.1 ∉ keywords ∧ t.2.2.1 ∉ keywords ∧
      t.2.2.2 ∉ keywords) :
    parse input f = .ok ⟨ts.map tupleMachine, [], []⟩ := by
  have h := parse_loop_tuples ts (input.length + 1) Netrc.empty ⟨input, ⟨1, 1⟩⟩
    MachineCount.zero f hw (Nat.lt_succ_self _) rfl (Nat.le_refl 0) (Nat.le_refl 0)
    (Nat.le_refl 0)
  exact h

/-- Claim C1 witness: a concrete two-tuple input. -/
theorem c1_complete_tuples_witness :
    wordsOf "machine a.com login u password p account x machine b.org login v password q account y".toList =
      tuplesWords [("a.com".toList, "u".toList, "p".toList, "x".toList),
                   ("b.org".toList, "v".toList, "q".toList, "y".toList)] ∧
    parse "machine a.com login u password p account x machine b.org login v password q account y".toList true =
      .ok ⟨[⟨some "a.com".toList, some "u".toList, some "p".toList, some "x".toList⟩,
            ⟨some "b.org".toList, some "v".toList, some "q".toList, some "y".toList⟩],
           [], []⟩ :=
  ⟨by decide,
   c1_complete_tuples
     [("a.com".toList, "u".toList, "p".toList, "x".toList),
      ("b.org".toList, "v".toList, "q".toList, "y".toList)] _ true (by decide) (by decide)⟩

/-- Claim C2 counterexample: the machine `{name: None, login: Some ""}` has no
whitespace in any set field, renders to `"default login "`, and re-parsing that text
with tolerance disabled fails with the EOF error instead of returning the machine. -/
theorem c2_roundtrip_counterexample :
    machineToText ⟨none, some [], none, none⟩ = "default login ".toList ∧
    parse (machineToText ⟨none, some [], none, none⟩) false = .error .eof := by
  exact ⟨by decide, by decide⟩

/-- Claim C2 (amended): for every Machine each of whose set fields is a nonempty word
containing no whitespace, rendering via Display and re-parsing the resulting
single-line text with tolerance disabled yields exactly that one machine. -/
theorem c2_roundtrip_amended (m : Machine)
    (hn : ∀ v, m.name = some v → IsWord v)
    (hl : ∀ v, m.login = some v → IsWord v)
    (hp : ∀ v, m.password = some v → IsWord v)
    (ha : ∀ v, m.account = some v → IsWord v) :
    parse (machineToText m) false = .ok ⟨[m], [], []⟩ := by
  have hw := wordsOf_machineToText m hn hl hp ha
  obtain ⟨nameo, lo, pw, ac⟩ := m
  show parse_loop ((machineToText ⟨nameo, lo, pw, ac⟩).length + 1) Netrc.empty
    ⟨machineToText ⟨nameo, lo, pw, ac⟩, ⟨1, 1⟩⟩ MachineCount.zero false = _
  cases nameo with
  | none =>
    simp only [nameWords] at hw
    rw [show ([kwDefault] : List (List Char)) ++ (optWords kwLogin lo ++
          (optWords kwPassword pw ++ optWords kwAccount ac)) =
        kwDefault :: (optWords kwLogin lo ++
          (optWords kwPassword pw ++ optWords kwAccount ac)) from rfl] at hw
    obtain ⟨tk1, hw1, hl1, heq1⟩ := run_default (machineToText ⟨none, lo, pw, ac⟩).length
      Netrc.empty ⟨machineToText ⟨none, lo, pw, ac⟩, ⟨1, 1⟩⟩ MachineCount.zero false
      _ _ _ hw rfl rfl
    rw [heq1]
    have h := run_opt_login lo pw ac (machineToText ⟨none, lo, pw, ac⟩).length
      ⟨Netrc.empty.machines ++ [Machine.empty], Netrc.empty.macdefs, Netrc.empty.unknown_entries⟩
      tk1 ⟨MachineCount.zero.machine + 1, MachineCount.zero.login, MachineCount.zero.password,
        MachineCount.zero.account⟩ false
      Netrc.empty.machines Machine.empty hw1 hl1 rfl (by decide) (by decide) (by decide)
    rw [h]
    simp [Machine.empty, updateOpt_none, Netrc.empty]
  | some v =>
    simp only [nameWords] at hw
    rw [show ([kwMachine, v] : List (List Char)) ++ (optWords kwLogin lo ++
          (optWords kwPassword pw ++ optWords kwAccount ac)) =
        kwMachine :: v :: (optWords kwLogin lo ++
          (optWords kwPassword pw ++ optWords kwAccount ac)) from rfl] at hw
    obtain ⟨tk1, hw1, hl1, heq1⟩ := run_machine (machineToText ⟨some v, lo, pw, ac⟩).length
      Netrc.empty ⟨machineToText ⟨some v, lo, pw, ac⟩, ⟨1, 1⟩⟩ MachineCount.zero false
      v _ _ _ hw rfl rfl rfl
    rw [heq1]
    have h := run_opt_login lo pw ac (machineToText ⟨some v, lo, pw, ac⟩).length
      ⟨Netrc.empty.machines ++ [⟨some v, none, none, none⟩], Netrc.empty.macdefs,
        Netrc.empty.unknown_entries⟩
      tk1 ⟨MachineCount.zero.machine + 1, MachineCount.zero.login, MachineCount.zero.password,
        MachineCount.zero.account⟩ false
      Netrc.empty.machines ⟨some v, none, none, none⟩ hw1 hl1 rfl (by decide) (by decide)
      (by decide)
    rw [h]
    simp [updateOpt_none, Netrc.empty]

/-- Claim C2 witness: a machine with three set whitespace-free fields round-trips. -/
theorem c2_roundtrip_witness :
    parse (machineToText ⟨some "a.com".toList, some "u".toList, none, some "x".toList⟩) false =
      .ok ⟨[⟨some "a.com".toList, some "u".toList, none, some "x".toList⟩], [], []⟩ :=
  c2_roundtrip_amended ⟨some "a.com".toList, some "u".toList, none, some "x".toList⟩
    (by intro v hv; injection hv with h; subst h; decide)
    (by intro v hv; injection hv with h; subst h; decide)
    (by intro v hv; exact Option.noConfusion hv)
    (by intro v hv; injection hv with h; subst h; decide)

/-- Claim C3 counterexample: the input `"login"` has a `login` keyword before any
`machine` or `default`, yet parse fails with the EOF error, not `IllegalFormat`. -/
theorem c3_before_machine_counterexample :
    parse "login".toList false = .error .eof := by decide

/-- Claim C3 (amended): when a `login`/`password`/`account` keyword is the first word of
the input and at least one further word follows it, parse (either tolerance) fails with
an `IllegalFormat` error carrying a position and the cause `"<kw> must follow machine"`;
when no word follows the keyword, the failure is the EOF error instead; and no input
makes parse perform an out-of-range access (modelled by `Error.outOfBounds`). -/
theorem c3_before_machine_amended :
    (∀ (input : List Char) (f : Bool) (kw v : List Char) (rest : List (List Char)),
      kw ∈ [kwLogin, kwPassword, kwAccount] →
      wordsOf input = kw :: v :: rest →
      ∃ p : Position,
        parse input f = .error (.illegalFormat p (kw ++ " must follow machine".toList))) ∧
    (∀ (input : List Char) (f : Bool) (kw : List Char),
      kw ∈ [kwLogin, kwPassword, kwAccount] →
      wordsOf input = [kw] →
      parse input f = .error .eof) ∧
    (∀ (input : List Char) (f : Bool), parse input f ≠ .error .outOfBounds) := by
  refine ⟨?_, ?_, fun input f => parse_borrow_ne_oob input f⟩
  · intro input f kw v rest hkw hw
    obtain ⟨tk1, h1, hw1, hl1⟩ := next_token_of_words_cons (t := ⟨input, ⟨1, 1⟩⟩) hw
    obtain ⟨tk2, h2, hw2, hl2⟩ := next_token_of_words_cons hw1
    refine ⟨tk2.pos, ?_⟩
    show parse_loop (input.length + 1) Netrc.empty ⟨input, ⟨1, 1⟩⟩ MachineCount.zero f = _
    rw [parse_loop_some h1]
    simp only [List.mem_cons, List.mem_singleton, List.not_mem_nil, or_false] at hkw
    rcases hkw with rfl | rfl | rfl
    · rw [show Token.new kwLogin = .login from by decide]
      simp [parse_entry, lexer_next_token, h2, MachineCount.zero]
      decide
    · rw [show Token.new kwPassword = .password from by decide]
      simp [parse_entry, lexer_next_token, h2, MachineCount.zero]
      decide
    · rw [show Token.new kwAccount = .account from by decide]
      simp [parse_entry, lexer_next_token, h2, MachineCount.zero]
      decide
  · intro input f kw hkw hw
    obtain ⟨tk1, h1, hw1, hl1⟩ := next_token_of_words_cons (t := ⟨input, ⟨1, 1⟩⟩) hw
    show parse_loop (input.length + 1) Netrc.empty ⟨input, ⟨1, 1⟩⟩ MachineCount.zero f = _
    rw [parse_loop_some h1]
    have hlt : lexer_next_token tk1 = .error .eof := by
      simp [lexer_next_token, next_token_of_words_nil hw1]
    simp only [List.mem_cons, List.mem_singleton, List.not_mem_nil, or_false] at hkw
    rcases hkw with rfl | rfl | rfl
    · rw [show Token.new kwLogin = .login from by decide]
      simp [parse_entry, hlt]
    · rw [show Token.new kwPassword = .password from by decide]
      simp [parse_entry, hlt]
    · rw [show Token.new kwAccount = .account from by decide]
      simp [parse_entry, hlt]

/-- Claim C3 witness: the repository's own illegal-format example, and a no-access
check on another input. -/
theorem c3_before_machine_witness :
    (∃ p : Position, parse "password bar login foo".toList false =
      .error (.illegalFormat p (kwPassword ++ " must follow machine".toList))) ∧
    parse "account".toList true = .error .eof ∧
    parse "machine h login l".toList false ≠ .error .outOfBounds :=
  ⟨c3_before_machine_amended.1 _ false kwPassword "bar".toList
      ["login".toList, "foo".toList] (by decide) (by decide),
   c3_before_machine_amended.2.1 _ true kwAccount (by decide) (by decide),
   c3_before_machine_amended.2.2 _ false⟩

/-- Claim C4 counterexample: the input `"foo machine"` ends with the keyword `machine`
yet parse fails with `IllegalFormat` (at the earlier unknown word), not with the
end-of-input error. -/
theorem c4_trailing_keyword_counterexample :
    parse "foo machine".toList false = .error (.illegalFormat ⟨1, 4⟩ "token: foo".toList) := by
  decide

/-- Claim C4 (amended): whenever the parse loop is at a state whose remaining input
contains exactly one word and that word is `machine`, `login`, `password`, `account`,
or `macdef`, the parse fails with the end-of-input error (no positional detail);
whenever the remaining input contains no word at all, the loop terminates successfully
with the accumulated result. -/
theorem c4_trailing_keyword_amended :
    (∀ (fuel : Nat) (n : Netrc) (tk : Tokens) (c : MachineCount) (f : Bool) (kw : List Char),
      kw ∈ [kwMachine, kwLogin, kwPassword, kwAccount, kwMacdef] →
      wordsOf tk.buf = [kw] →
      parse_loop (fuel + 1) n tk c f = .error .eof) ∧
    (∀ (fuel : Nat) (n : Netrc) (tk : Tokens) (c : MachineCount) (f : Bool),
      wordsOf tk.buf = [] →
      parse_loop (fuel + 1) n tk c f = .ok n) := by
  constructor
  · intro fuel n tk c f kw hkw hw
    obtain ⟨tk1, h1, hw1, hl1⟩ := next_token_of_words_cons hw
    rw [parse_loop_some h1]
    have hlt : lexer_next_token tk1 = .error .eof := by
      simp [lexer_next_token, next_token_of_words_nil hw1]
    simp only [List.mem_cons, List.mem_singleton, List.not_mem_nil, or_false] at hkw
    rcases hkw with rfl | rfl | rfl | rfl | rfl
    · rw [show Token.new kwMachine = .machine from by decide]
      simp [parse_entry, hlt]
    · rw [show Token.new kwLogin = .login from by decide]
      simp [parse_entry, hlt]
    · rw [show Token.new kwPassword = .password from by decide]
      simp [parse_entry, hlt]
    · rw [show Token.new kwAccount = .account from by decide]
      simp [parse_entry, hlt]
    · rw [show Token.new kwMacdef = .macdef from by decide]
      simp [parse_entry, hlt]
  · intro fuel n tk c f hw
    exact run_eof hw

/-- Claim C4 witness: the loop fails with EOF on a lone `macdef`, and terminates with
Ok on whitespace-only remaining input. -/
theorem c4_trailing_keyword_witness :
    parse_loop 7 Netrc.empty ⟨"macdef".toList, ⟨1, 1⟩⟩ MachineCount.zero false =
      .error .eof ∧
    parse_loop 3 Netrc.empty ⟨"  ".toList, ⟨1, 1⟩⟩ MachineCount.zero true = .ok Netrc.empty :=
  ⟨c4_trailing_keyword_amended.1 6 _ _ _ false kwMacdef (by decide) (by decide),
   c4_trailing_keyword_amended.2 2 _ _ _ true (by decide)⟩

/-- Claim C5 counterexample: with tolerance enabled, the input `"login x foo"` contains
the bare non-keyword word `foo`, never consumed as a value, yet the parse fails (on the
earlier ordering violation) and `foo` is not collected into `unknown_entries`. -/
theorem c5_unknown_word_counterexample :
    parse "login x foo".toList true =
      .error (.illegalFormat ⟨1, 8⟩ "login must follow machine".toList) := by decide

/-- Claim C5 (amended): a bare word that is not one of the six keywords, when it is the
token the parser dispatches, fails with `IllegalFormat` at the current position with
cause `"token: <word>"` under tolerance disabled, and under tolerance enabled is
appended to `unknown_entries` (so words accumulate in encounter order); an input all of
whose words are non-keywords parses under tolerance to exactly that word list as
`unknown_entries`. -/
theorem c5_unknown_word_amended :
    (∀ (n : Netrc) (tk : Tokens) (c : MachineCount) (s : List Char),
      s ∉ keywords →
      parse_entry n tk (Token.new s) c false =
        .error (.illegalFormat tk.pos ("token: ".toList ++ s)) ∧
      parse_entry n tk (Token.new s) c true =
        .ok (⟨n.machines, n.macdefs, n.unknown_entries ++ [s]⟩, tk, c)) ∧
    (∀ (ws' : List (List Char)) (input : List Char),
      wordsOf input = ws' →
      (∀ w ∈ ws', w ∉ keywords) →
      parse input true = .ok ⟨[], [], ws'⟩) := by
  constructor
  · intro n tk c s hs
    rw [new_of_not_kw (by simpa [keywords] using hs)]
    exact ⟨by simp [parse_entry], by simp [parse_entry]⟩
  · intro ws' input hw hkw
    have h := parse_loop_unknowns ws' (input.length + 1) Netrc.empty ⟨input, ⟨1, 1⟩⟩
      MachineCount.zero hw
      (fun w hwm => new_of_not_kw (by simpa [keywords] using hkw w hwm))
      (Nat.lt_succ_self _)
    exact h

/-- Claim C5 witness: concrete dispatches and a two-word tolerant parse. -/
theorem c5_unknown_word_witness :
    (parse_entry Netrc.empty ⟨[], ⟨1, 9⟩⟩ (Token.new "my_entry".toList) MachineCount.zero
        false =
      .error (.illegalFormat ⟨1, 9⟩ "token: my_entry".toList) ∧
     parse_entry Netrc.empty ⟨[], ⟨1, 9⟩⟩ (Token.new "my_entry".toList) MachineCount.zero
        true =
      .ok (⟨[], [], ["my_entry".toList]⟩, ⟨[], ⟨1, 9⟩⟩, MachineCount.zero)) ∧
    parse "my1 my2".toList true = .ok ⟨[], [], ["my1".toList, "my2".toList]⟩ :=
  ⟨c5_unknown_word_amended.1 _ _ _ _ (by decide),
   c5_unknown_word_amended.2 ["my1".toList, "my2".toList] _ (by decide) (by decide)⟩

/-- Claim C6 counterexample: on the buffer `"a\n \nb\n\nc"` the whitespace-only second
line is empty after stripping, yet it does not terminate the capture: the code emits it
(trimmed to the empty command) and continues, returning three commands rather than one. -/
theorem c6_next_commands_counterexample :
    Tokens.next_commands ⟨"a\n \nb\n\nc".toList, ⟨1, 1⟩⟩ =
      (⟨['c'], ⟨4, 1⟩⟩, [['a'], [], ['b']]) ∧
    (Tokens.next_commands ⟨"a\n \nb\n\nc".toList, ⟨1, 1⟩⟩).2 ≠ [['a']] := by
  exact ⟨by decide, by decide⟩

/-- Claim C6 (amended): `next_commands` first skips whitespace, then consumes lines up
to the first line that is empty before any stripping (a whitespace-only line does not
terminate and is emitted trimmed) or up to end of input; every non-terminating line is
appended with leading and trailing whitespace stripped, in order; the consumed span —
the terminating empty line included, but not emitted — is dropped from the buffer
(`byteLen l + 1` positions per line, as the source consumes); the row advances by the
number of captured commands with the column reset to 1; and at end of input the result
is the empty sequence. -/
theorem c6_next_commands_amended :
    (∀ t : Tokens,
      (t.next_commands).2 =
        ((lines (t.skip_whitespace).buf).takeWhile (fun l => !l.isEmpty)).map trimText ∧
      (t.next_commands).1.buf =
        (t.skip_whitespace).buf.drop (consumedLen (lines (t.skip_whitespace).buf)) ∧
      (t.next_commands).1.pos =
        ⟨(t.skip_whitespace).pos.row + (t.next_commands).2.length, 1⟩) ∧
    (∀ p : Position, Tokens.next_commands ⟨[], p⟩ = (⟨[], ⟨p.row, 1⟩⟩, [])) := by
  exact ⟨next_commands_spec, fun p => rfl⟩

/-- Claim C7: at the failing input the macdef body capture consumes `line.len() + 1`
characters per line, where `len` is the UTF-8 byte length, so after the non-ASCII
command line `中` the buffer is over-advanced and the following `machine` entry is
corrupted — the parse fails although the macro commands themselves were captured; the
same input without the macdef block, and an ASCII-only macro body, parse normally. -/
theorem c7_macdef_unicode_divergence :
    parse "macdef m\n中\n\nmachine h login l".toList false =
      .error (.illegalFormat ⟨3, 6⟩ "token: chine".toList) ∧
    parse "machine h login l".toList false =
      .ok ⟨[⟨some ['h'], some ['l'], none, none⟩], [], []⟩ ∧
    parse "macdef m\ncd /x\n\nmachine h login l".toList false =
      .ok ⟨[⟨some ['h'], some ['l'], none, none⟩], [(['m'], ["cd /x".toList])], []⟩ := by
  exact ⟨by decide, by decide, by decide⟩

/-- Claim C8: every `default` keyword appends a Machine whose name is absent, and an
input whose words are k occurrences of `default` yields k such machines, all retained
in the machines list rather than merged. -/
theorem c8_default_entries :
    (∀ (n : Netrc) (tk : Tokens) (c : MachineCount) (f : Bool),
      parse_entry n tk .default c f =
        .ok (⟨n.machines ++ [⟨none, none, none, none⟩], n.macdefs, n.unknown_entries⟩, tk,
             ⟨c.machine + 1, c.login, c.password, c.account⟩)) ∧
    (∀ (k : Nat) (input : List Char) (f : Bool),
      wordsOf input = List.replicate k kwDefault →
      parse input f = .ok ⟨List.replicate k ⟨none, none, none, none⟩, [], []⟩) := by
  constructor
  · intro n tk c f
    rfl
  · intro k input f hw
    have h := parse_loop_defaults k (input.length + 1) Netrc.empty ⟨input, ⟨1, 1⟩⟩
      MachineCount.zero f hw (Nat.lt_succ_self _)
    exact h

/-- Claim C8 witness: two `default` entries are both retained. -/
theorem c8_default_entries_witness :
    parse_entry Netrc.empty ⟨[], ⟨1, 8⟩⟩ .default MachineCount.zero false =
      .ok (⟨[⟨none, none, none, none⟩], [], []⟩, ⟨[], ⟨1, 8⟩⟩, ⟨1, 0, 0, 0⟩) ∧
    parse "default default".toList false =
      .ok ⟨[⟨none, none, none, none⟩, ⟨none, none, none, none⟩], [], []⟩ :=
  ⟨c8_default_entries.1 _ _ _ false,
   c8_default_entries.2 2 _ false (by decide)⟩

/-- Claim C9: `parse_entry` preserves the invariant that the machine counter equals the
machines-list length; under that invariant the credential branches never reach the
out-of-range access modelled by `Error.outOfBounds` (the counter check catching the
empty-list case before `machines.len() - 1` is used), and consequently no input at all
makes `parse` return the out-of-bounds marker. -/
theorem c9_counter_invariant :
    (∀ (n : Netrc) (tk : Tokens) (tok : Token) (c : MachineCount) (f : Bool)
       (n1 : Netrc) (tk1 : Tokens) (c1 : MachineCount),
      c.machine = n.machines.length →
      parse_entry n tk tok c f = .ok (n1, tk1, c1) →
      c1.machine = n1.machines.length) ∧
    (∀ (n : Netrc) (tk : Tokens) (tok : Token) (c : MachineCount) (f : Bool),
      c.machine = n.machines.length →
      parse_entry n tk tok c f ≠ .error .outOfBounds) ∧
    (∀ (input : List Char) (f : Bool), parse input f ≠ .error .outOfBounds) :=
  ⟨fun _ _ _ _ _ _ _ _ => parse_entry_ok_inv, fun _ _ _ _ _ => parse_entry_ne_oob,
   fun input f => parse_borrow_ne_oob input f⟩

/-- Claim C9 witness: the invariant concretely preserved and a concrete no-access
check. -/
theorem c9_counter_invariant_witness :
    (⟨1, 0, 0, 0⟩ : MachineCount).machine =
      (⟨[⟨none, none, none, none⟩], [], []⟩ : Netrc).machines.length ∧
    parse_entry Netrc.empty ⟨[], ⟨1, 1⟩⟩ .login MachineCount.zero false ≠
      .error .outOfBounds ∧
    parse "login bar".toList false ≠ .error .outOfBounds :=
  ⟨c9_counter_invariant.1 Netrc.empty ⟨[], ⟨1, 8⟩⟩ .default MachineCount.zero false
      ⟨[⟨none, none, none, none⟩], [], []⟩ ⟨[], ⟨1, 8⟩⟩ ⟨1, 0, 0, 0⟩ (by decide) (by decide),
   c9_counter_invariant.2.1 _ _ _ _ false (by decide),
   c9_counter_invariant.2.2 _ false⟩

/-- Claim C10: the value token read after a keyword is converted back to its original
text (`(Token.new s).toText = s` for every word), so a value that spells a recognized
keyword is accepted and stored verbatim: an input with words `machine <h> login <l>`
parses to that machine for any words h and l, keyword spellings included. -/
theorem c10_keyword_values :
    (∀ s : List Char, (Token.new s).toText = s) ∧
    (∀ (hostW loginW : List Char) (input : List Char) (f : Bool),
      wordsOf input = [kwMachine, hostW, kwLogin, loginW] →
      parse input f = .ok ⟨[⟨some hostW, some loginW, none, none⟩], [], []⟩) := by
  constructor
  · exact toText_new
  · intro hostW loginW input f hw
    show parse_loop (input.length + 1) Netrc.empty ⟨input, ⟨1, 1⟩⟩ MachineCount.zero f = _
    obtain ⟨tk1, hw1, hl1, heq1⟩ := run_machine input.length Netrc.empty ⟨input, ⟨1, 1⟩⟩
      MachineCount.zero f hostW [kwLogin, loginW] _ _ hw rfl rfl rfl
    rw [heq1]
    have hl1i : tk1.buf.length < input.length := hl1
    obtain ⟨len1, hlen1⟩ : ∃ k, input.length = k + 1 := ⟨input.length - 1, by omega⟩
    rw [hlen1]
    obtain ⟨tk2, hw2, hl2, heq2⟩ := run_login_last len1
      ⟨Netrc.empty.machines ++ [⟨some hostW, none, none, none⟩], Netrc.empty.macdefs,
        Netrc.empty.unknown_entries⟩
      tk1
      ⟨MachineCount.zero.machine + 1, MachineCount.zero.login, MachineCount.zero.password,
        MachineCount.zero.account⟩ f
      Netrc.empty.machines ⟨some hostW, none, none, none⟩ loginW []
      ⟨Netrc.empty.machines ++ [⟨some hostW, some loginW, none, none⟩], Netrc.empty.macdefs,
        Netrc.empty.unknown_entries⟩
      ⟨MachineCount.zero.machine + 1, MachineCount.zero.login + 1, MachineCount.zero.password,
        MachineCount.zero.account⟩
      hw1 rfl (by decide) rfl rfl
    rw [heq2]
    obtain ⟨len2, hlen2⟩ : ∃ k, len1 = k + 1 := ⟨len1 - 1, by omega⟩
    rw [hlen2]
    rw [run_eof hw2]
    rfl

/-- Claim C10 witness: a hostname spelling `default` and a login spelling `machine`
are stored verbatim. -/
theorem c10_keyword_values_witness :
    parse "machine default login machine".toList false =
      .ok ⟨[⟨some "default".toList, some "machine".toList, none, none⟩], [], []⟩ ∧
    (Token.new "password".toList).toText = "password".toList :=
  ⟨c10_keyword_values.2 "default".toList "machine".toList _ false (by decide),
   c10_keyword_values.1 _⟩

end NetrcRs
